import Mathlib

/-!
Verification development for the Conversational-AI-Copilot transcript store.

Shallow embedding of the ingestion/storage data path:
  * `src/ingestion/parser.py`   — `parse_transcript`
  * `src/ingestion/chunker.py`  — `Chunker.chunk_document`
  * `src/storage/vector_store.py` — `VectorStore` (add, search, save, load,
    call-id accessors, transcript reconstruction)
  * `src/ingestion/ingestion_pipeline.py` — `IngestionPipeline.run`

Machine floats are modelled by `ℚ` (FAISS `IndexFlatL2` performs exact
squared-L2 scans; only the ordering of distances matters to the claims).
Python dicts are modelled as insertion-ordered association lists, matching
CPython's ordered-dict semantics.  File contents are strings split on
newlines, matching line iteration over a text file.
-/

namespace ConvCopilot

/-! ### Python string helpers

`str.rstrip` / `str.strip` over the whitespace characters Python's `\s`
matches on ASCII text, and newline splitting as done by iterating a file. -/

def isPySpace (c : Char) : Bool :=
  c = ' ' || c = '\t' || c = '\n' || c = '\r' || c = '\x0b' || c = '\x0c'

def pyRstrip (s : String) : String :=
  ⟨(s.data.reverse.dropWhile isPySpace).reverse⟩

def pyLstrip (s : String) : String :=
  ⟨s.data.dropWhile isPySpace⟩

def pyStrip (s : String) : String :=
  pyLstrip (pyRstrip s)

def splitLinesAux (acc : List Char) : List Char → List String
  | [] => [⟨acc.reverse⟩]
  | '\n' :: rest => ⟨acc.reverse⟩ :: splitLinesAux [] rest
  | c :: rest => splitLinesAux (c :: acc) rest

/-- The sequence of lines `for line in f` iterates over (newline stripped;
`pyRstrip` below also removes it, so dropping it here is equivalent). -/
def splitLines (content : String) : List String :=
  splitLinesAux [] content.data

/-! ### Transcript parser (`parser.py`)

The header regex is `^(\[\d{2}:\d{2}\])\s+(.*?):\s+(.*)`, applied with
`re.match`.  Backtracking semantics: the whitespace run after `]` is taken
greedily (a shorter run would only prepend whitespace to the lazily matched
speaker group and cannot enable a match that the greedy run misses, since
the dropped characters contain no colon); the speaker group ends at the
first `:` that is immediately followed by a whitespace character; the
whitespace after that colon is again taken greedily and the speech group is
the remainder of the line. -/

/-- Splits `cs` at the first `':'` that is followed by a whitespace
character, returning the part before the colon and the part after it
(starting with that whitespace character). -/
def splitSpeaker : List Char → Option (List Char × List Char)
  | [] => none
  | ':' :: d :: rest =>
    if isPySpace d then some ([], d :: rest)
    else
      match splitSpeaker (d :: rest) with
      | some (sp, r) => some (':' :: sp, r)
      | none => none
  | c :: rest =>
    match splitSpeaker rest with
    | some (sp, r) => some (c :: sp, r)
    | none => none

/-- `speaker_pattern.match(line)`: on success returns
`(timestamp, speaker, speech)` — the three captured groups. -/
def hdrMatch (line : String) : Option (String × String × String) :=
  match line.data with
  | '[' :: a :: b :: ':' :: c :: d :: ']' :: rest =>
    if a.isDigit && b.isDigit && c.isDigit && d.isDigit then
      if (rest.takeWhile isPySpace).isEmpty then none
      else
        match splitSpeaker (rest.dropWhile isPySpace) with
        | some (sp, r) =>
          some (⟨['[', a, b, ':', c, d, ']']⟩, ⟨sp⟩, ⟨r.dropWhile isPySpace⟩)
        | none => none
    else none
  | _ => none

/-- A parsed speaker turn: one yielded dictionary of `parse_transcript`. -/
structure Turn where
  call_id : String
  timestamp : Option String
  speaker : String
  text : String
deriving Repr, DecidableEq

/-- Python truthiness of `current_speaker` (`None` and `""` are falsy). -/
def spkTruthy : Option String → Bool
  | none => false
  | some s => !s.isEmpty

/-- The `yield` guarded by `if current_speaker and current_speech:`
(`current_speech` is a list; truthy iff non-empty). -/
def flushTurn (callId : String) (spk : Option String) (ts : Option String)
    (speech : List String) : List Turn :=
  if spkTruthy spk && !speech.isEmpty then
    [⟨callId, ts, spk.getD "", String.intercalate "\n" speech⟩]
  else []

/-- The line loop of `parse_transcript`, carrying `current_speaker`,
`current_timestamp` and `current_speech`. -/
def parseLoop (callId : String) (spk : Option String) (ts : Option String)
    (speech : List String) : List String → List Turn
  | [] => flushTurn callId spk ts speech
  | l :: ls =>
    let line := pyRstrip l
    match hdrMatch line with
    | some (t, sp, tx) =>
      flushTurn callId spk ts speech ++ parseLoop callId (some sp) (some t) [tx] ls
    | none =>
      if !line.isEmpty && spkTruthy spk then
        parseLoop callId spk ts (speech ++ [pyStrip line]) ls
      else
        parseLoop callId spk ts speech ls

/-- `parse_transcript(file_path, call_id)`, with the file's contents passed
directly as a string. -/
def parseTranscript (content : String) (callId : String) : List Turn :=
  parseLoop callId none none [] (splitLines content)

/-! ### Chunker (`chunker.py`) -/

/-- A stored chunk dictionary.  `timestamp`, `speaker` and `text` are
optional because `get_full_transcript` accesses them with `.get` defaults;
`call_id` and `segment_id` are accessed unconditionally. -/
structure Chunk where
  call_id : String
  segment_id : Nat
  timestamp : Option String
  speaker : Option String
  text : Option String
deriving Repr, DecidableEq

/-- `Chunker.chunk_document`: copies each segment and assigns
`segment_id = i` from `enumerate`. -/
def chunkDocument (segments : List Turn) : List Chunk :=
  segments.enum.map fun p =>
    { call_id := p.2.call_id
      segment_id := p.1
      timestamp := p.2.timestamp
      speaker := some p.2.speaker
      text := some p.2.text }

/-! ### Vector store (`vector_store.py`)

`self.metadata` is a Python dict `int -> chunk`; modelled as an
insertion-ordered association list.  `self.index` is a FAISS
`IndexFlatL2`: a dimension plus the list of stored vectors, searched by
exact squared-L2 distance.  The in-memory state after `__init__`/`load`
always has an index object, so `index` is not optional here. -/

/-- Python dict assignment `m[k] = v`: updates in place if `k` is present,
appends otherwise (CPython insertion-order semantics). -/
def dictSet (m : List (Nat × Chunk)) (k : Nat) (v : Chunk) : List (Nat × Chunk) :=
  if m.any (fun p => p.1 == k) then
    m.map fun p => if p.1 == k then (k, v) else p
  else m ++ [(k, v)]

/-- Python dict lookup `m[k]` / membership `k in m`. -/
def dictGet (m : List (Nat × Chunk)) (k : Nat) : Option Chunk :=
  (m.find? fun p => p.1 == k).map Prod.snd

/-- In-memory `VectorStore` state: FAISS index (dimension + vectors),
metadata dict and `next_id`. -/
structure Store where
  dim : Nat
  index : List (List ℚ)
  metadata : List (Nat × Chunk)
  next_id : Nat
deriving Repr, DecidableEq

/-- The state produced when no persisted files are found:
`IndexFlatL2(config.EMBEDDING_DIMENSION)`, empty metadata, `next_id = 0`. -/
def emptyStore (d : Nat) : Store :=
  { dim := d, index := [], metadata := [], next_id := 0 }

/-- `VectorStore.add_documents`.  FAISS `index.add` appends the batch but
raises unless every vector has the index's dimension (modelled as the
error case); the metadata loop stores chunk `i` under key `next_id + i`
and `next_id` then advances by `len(chunks)`. -/
def addDocuments (s : Store) (chunks : List Chunk) (embeddings : List (List ℚ)) :
    Except String Store :=
  if embeddings.all fun e => e.length = s.dim then
    .ok { s with
      index := s.index ++ embeddings
      metadata := chunks.enum.foldl (fun m p => dictSet m (s.next_id + p.1) p.2) s.metadata
      next_id := s.next_id + chunks.length }
  else .error "faiss: add expects vectors of the index dimension"

/-- Exact squared L2 distance, as computed by `IndexFlatL2`. -/
def sqDist (q v : List ℚ) : ℚ :=
  ((q.zip v).map fun p => (p.1 - p.2) * (p.1 - p.2)).sum

/-- The comparison FAISS result ordering satisfies: strictly smaller
distance first, ties resolved deterministically by position. -/
def faissLe (index : List (List ℚ)) (q : List ℚ) (a b : Nat) : Bool :=
  decide (sqDist q (index.getD a []) < sqDist q (index.getD b []) ∨
    (sqDist q (index.getD a []) = sqDist q (index.getD b []) ∧ a ≤ b))

/-- All stored positions ordered by ascending distance to `q`. -/
def faissOrder (index : List (List ℚ)) (q : List ℚ) : List Nat :=
  (List.range index.length).mergeSort (faissLe index q)

/-- The label row `indices[0]` of `index.search(q, k)`: the `min k ntotal`
nearest positions in ascending-distance order, padded to length `k`
with the sentinel `-1`. -/
def faissSearch (index : List (List ℚ)) (q : List ℚ) (k : Nat) : List Int :=
  ((faissOrder index q).take k).map Int.ofNat ++
    List.replicate (k - min k index.length) (-1)

/-- `VectorStore.search`: empty-index early return, then the FAISS scan
followed by the result loop that skips `-1` labels and positions missing
from the metadata dict.  A query of the wrong dimension makes the FAISS
call itself raise (error case), but only after the early return. -/
def searchStore (s : Store) (q : List ℚ) (k : Nat) : Except String (List Chunk) :=
  if s.index.length = 0 then .ok []
  else if q.length = s.dim then
    .ok ((faissSearch s.index q k).filterMap fun i =>
      if i = -1 then none else dictGet s.metadata i.toNat)
  else .error "faiss: search expects a query of the index dimension"

/-- The two on-disk artifacts.  `indexFile` holds what `faiss.write_index`
wrote (the index records its own dimension); `metaFile` holds the pickle
file's contents, `none` standing for a present-but-corrupt file on which
`pickle.load` raises. -/
structure Disk where
  indexFile : Option (Nat × List (List ℚ))
  metaFile : Option (Option (List (Nat × Chunk) × Nat))
deriving Repr, DecidableEq

/-- `VectorStore.save`: writes the index file and pickles
`(self.metadata, self.next_id)`, fully overwriting both artifacts. -/
def vsSave (s : Store) : Disk :=
  { indexFile := some (s.dim, s.index)
    metaFile := some (some (s.metadata, s.next_id)) }

/-- `VectorStore.load` (`cfgDim` is `config.EMBEDDING_DIMENSION`): when
both files exist, reads them back — `pickle.load` on a corrupt metadata
file raises (error case); otherwise initializes a fresh empty store. -/
def vsLoad (cfgDim : Nat) (d : Disk) : Except String Store :=
  match d.indexFile, d.metaFile with
  | some ix, some raw =>
    match raw with
    | some mn => .ok { dim := ix.1, index := ix.2, metadata := mn.1, next_id := mn.2 }
    | none => .error "pickle: UnpicklingError"
  | _, _ => .ok (emptyStore cfgDim)

/-- `VectorStore.get_all_call_ids`: the distinct `call_id` values. -/
def getAllCallIds (s : Store) : List String :=
  ((s.metadata.map Prod.snd).map Chunk.call_id).dedup

/-- The comparison realizing `sorted(call_chunks, key=lambda x: x['segment_id'])`. -/
def segLe (a b : Chunk) : Bool :=
  decide (a.segment_id ≤ b.segment_id)

/-- `VectorStore.get_chunks_by_call_id`: filter the dict's values by
`call_id`, then Python's stable ascending sort by `segment_id`. -/
def getChunksByCallId (s : Store) (c : String) : List Chunk :=
  ((s.metadata.map Prod.snd).filter fun ch => ch.call_id == c).mergeSort segLe

/-- The f-string
`f"{chunk.get('timestamp', '')} {chunk.get('speaker', 'Unknown')}: {chunk.get('text', '')}"`. -/
def fmtLine (ch : Chunk) : String :=
  ch.timestamp.getD "" ++ " " ++ ch.speaker.getD "Unknown" ++ ": " ++ ch.text.getD ""

/-- `VectorStore.get_full_transcript`: empty string when the call has no
chunks, else the formatted lines joined with newlines. -/
def getFullTranscript (s : Store) (c : String) : String :=
  let callChunks := getChunksByCallId s c
  if callChunks.isEmpty then ""
  else String.intercalate "\n" (callChunks.map fmtLine)

/-! ### Ingestion pipeline (`ingestion_pipeline.py`) -/

/-- `IngestionPipeline.run`: parse, chunk, and when no chunks were
produced return without embedding or touching the store.  The embedder is
an opaque function; the returned `Nat` counts how many times it was
invoked (`encode` is called once on the whole batch otherwise). -/
def pipelineRun (embed : List String → List (List ℚ)) (s : Store)
    (content : String) (callId : String) : Except String (Store × Nat) :=
  let segments := parseTranscript content callId
  let chunks := chunkDocument segments
  if chunks.isEmpty then .ok (s, 0)
  else
    let chunkTexts := chunks.map fun ch => ch.text.getD ""
    let embeddings := embed chunkTexts
    (addDocuments s chunks embeddings).map fun s2 => (s2, 1)

/-- Iterates `add_documents` over a sequence of batches (the "N calls" of
the invariant claims), propagating the first failure. -/
def addAll (s : Store) : List (List Chunk × List (List ℚ)) → Except String Store
  | [] => .ok s
  | b :: bs =>
    match addDocuments s b.1 b.2 with
    | .ok s2 => addAll s2 bs
    | .error e => .error e

/-! ### Helper lemmas -/

/-- The store invariant maintained by construction: metadata keys are
exactly `0 .. next_id - 1` in insertion order, and the index holds
`next_id` vectors (so index positions and metadata keys agree). -/
def Consistent (s : Store) : Prop :=
  s.metadata.map Prod.fst = List.range s.next_id ∧ s.index.length = s.next_id

lemma dropWhile_idem (p : Char → Bool) (xs : List Char) :
    (xs.dropWhile p).dropWhile p = xs.dropWhile p := by
  induction xs with
  | nil => simp
  | cons x xs ih =>
    by_cases h : p x
    · simp [List.dropWhile_cons, h, ih]
    · simp [List.dropWhile_cons, h]

lemma pyRstrip_idem (s : String) : pyRstrip (pyRstrip s) = pyRstrip s := by
  simp [pyRstrip, dropWhile_idem]

lemma pyStrip_pyRstrip (s : String) : pyStrip (pyRstrip s) = pyStrip s := by
  simp [pyStrip, pyRstrip_idem]

lemma dictSet_fresh (m : List (Nat × Chunk)) (k : Nat) (v : Chunk)
    (h : ∀ p ∈ m, p.1 ≠ k) : dictSet m k v = m ++ [(k, v)] := by
  have hfalse : m.any (fun p => p.1 == k) = false := by
    rw [List.any_eq_false]
    intro p hp
    simp only [beq_iff_eq]
    exact h p hp
  unfold dictSet
  rw [hfalse]
  simp

lemma foldl_dictSet_fresh (n : Nat) :
    ∀ (ps m : List (Nat × Chunk)),
      (∀ p ∈ ps, ∀ q ∈ m, q.1 ≠ n + p.1) →
      ps.Pairwise (fun a b => a.1 ≠ b.1) →
      ps.foldl (fun acc p => dictSet acc (n + p.1) p.2) m =
        m ++ ps.map fun p => (n + p.1, p.2) := by
  intro ps
  induction ps with
  | nil => intro m _ _; simp
  | cons p ps ih =>
    intro m hf hp
    have hstep : dictSet m (n + p.1) p.2 = m ++ [(n + p.1, p.2)] :=
      dictSet_fresh m (n + p.1) p.2 fun q hq => hf p (List.mem_cons_self _ _) q hq
    have hfresh2 : ∀ p2 ∈ ps, ∀ q ∈ m ++ [(n + p.1, p.2)], q.1 ≠ n + p2.1 := by
      intro p2 hp2 q hq
      rcases List.mem_append.mp hq with hq | hq
      · exact hf p2 (List.mem_cons_of_mem _ hp2) q hq
      · have hq1 : q = (n + p.1, p.2) := List.mem_singleton.mp hq
        have hne : p.1 ≠ p2.1 := (List.pairwise_cons.mp hp).1 p2 hp2
        subst hq1
        simp only []
        omega
    calc (p :: ps).foldl (fun acc p => dictSet acc (n + p.1) p.2) m
        = ps.foldl (fun acc p => dictSet acc (n + p.1) p.2) (m ++ [(n + p.1, p.2)]) := by
          simp [hstep]
      _ = (m ++ [(n + p.1, p.2)]) ++ ps.map (fun p => (n + p.1, p.2)) :=
          ih (m ++ [(n + p.1, p.2)]) hfresh2 (List.pairwise_cons.mp hp).2
      _ = m ++ (p :: ps).map (fun p => (n + p.1, p.2)) := by simp

lemma enum_pairwise_fst_ne (chunks : List Chunk) :
    chunks.enum.Pairwise fun a b => a.1 ≠ b.1 := by
  have hnd : (chunks.enum.map Prod.fst).Nodup := by
    rw [List.enum_map_fst]; exact List.nodup_range _
  exact List.Pairwise.of_map Prod.fst (fun _ _ h => h) hnd

lemma addDocuments_metadata (s : Store) (chunks : List Chunk)
    (h : s.metadata.map Prod.fst = List.range s.next_id) :
    chunks.enum.foldl (fun m p => dictSet m (s.next_id + p.1) p.2) s.metadata =
      s.metadata ++ chunks.enum.map fun p => (s.next_id + p.1, p.2) := by
  apply foldl_dictSet_fresh
  · intro p _ q hq
    have hmem : q.1 ∈ s.metadata.map Prod.fst := List.mem_map_of_mem _ hq
    rw [h] at hmem
    have := List.mem_range.mp hmem
    omega
  · exact enum_pairwise_fst_ne chunks

lemma addDocuments_ok_of_dims (s : Store) (chunks : List Chunk)
    (embeddings : List (List ℚ)) (hd : ∀ e ∈ embeddings, e.length = s.dim) :
    addDocuments s chunks embeddings = .ok { s with
      index := s.index ++ embeddings
      metadata := chunks.enum.foldl (fun m p => dictSet m (s.next_id + p.1) p.2) s.metadata
      next_id := s.next_id + chunks.length } := by
  unfold addDocuments
  rw [if_pos]
  rw [List.all_eq_true]
  intro e he
  exact decide_eq_true_iff.mpr (hd e he)

lemma consistent_add (s : Store) (chunks : List Chunk) (embeddings : List (List ℚ))
    (hc : Consistent s) (hlen : chunks.length = embeddings.length)
    (hd : ∀ e ∈ embeddings, e.length = s.dim) :
    ∃ s2, addDocuments s chunks embeddings = .ok s2 ∧ Consistent s2 ∧
      s2.dim = s.dim ∧ s2.next_id = s.next_id + chunks.length ∧
      s2.metadata = s.metadata ++ chunks.enum.map (fun p => (s.next_id + p.1, p.2)) := by
  refine ⟨_, addDocuments_ok_of_dims s chunks embeddings hd, ⟨?_, ?_⟩, rfl, rfl,
    addDocuments_metadata s chunks hc.1⟩
  · show (chunks.enum.foldl (fun m p => dictSet m (s.next_id + p.1) p.2) s.metadata).map
      Prod.fst = List.range (s.next_id + chunks.length)
    rw [addDocuments_metadata s chunks hc.1, List.map_append, hc.1, List.range_add]
    congr 1
    rw [List.map_map, ← List.enum_map_fst chunks, List.map_map]
    rfl
  · show (s.index ++ embeddings).length = s.next_id + chunks.length
    rw [List.length_append, hc.2, hlen]

lemma addAll_ok :
    ∀ (bs : List (List Chunk × List (List ℚ))) (s : Store), Consistent s →
      (∀ b ∈ bs, b.1.length = b.2.length ∧ ∀ e ∈ b.2, e.length = s.dim) →
      ∃ s2, addAll s bs = .ok s2 ∧ Consistent s2 ∧ s2.dim = s.dim ∧
        s2.next_id = s.next_id + (bs.map fun b => b.1.length).sum := by
  intro bs
  induction bs with
  | nil => intro s hc _; exact ⟨s, rfl, hc, rfl, by simp⟩
  | cons b bs ih =>
    intro s hc hv
    obtain ⟨hb1, hb2⟩ := hv b (List.mem_cons_self _ _)
    obtain ⟨s2, h2, hc2, hdim2, hnext2, _⟩ := consistent_add s b.1 b.2 hc hb1 hb2
    obtain ⟨s3, h3, hc3, hdim3, hnext3⟩ := ih s2 hc2 fun b2 hb2m => by
      rw [hdim2]; exact hv b2 (List.mem_cons_of_mem _ hb2m)
    refine ⟨s3, ?_, hc3, by rw [hdim3, hdim2], ?_⟩
    · simp only [addAll, h2]
      exact h3
    · rw [hnext3, hnext2, List.map_cons, List.sum_cons]
      omega

lemma consistent_empty (d : Nat) : Consistent (emptyStore d) :=
  ⟨rfl, rfl⟩

lemma faissLe_trans (index : List (List ℚ)) (q : List ℚ) (a b c : Nat)
    (h1 : faissLe index q a b = true) (h2 : faissLe index q b c = true) :
    faissLe index q a c = true := by
  simp only [faissLe, decide_eq_true_iff] at h1 h2 ⊢
  rcases h1 with h1 | ⟨h1e, h1le⟩ <;> rcases h2 with h2 | ⟨h2e, h2le⟩
  · exact Or.inl (h1.trans h2)
  · exact Or.inl (lt_of_lt_of_le h1 (le_of_eq h2e))
  · exact Or.inl (lt_of_le_of_lt (le_of_eq h1e) h2)
  · exact Or.inr ⟨h1e.trans h2e, h1le.trans h2le⟩

lemma faissLe_total (index : List (List ℚ)) (q : List ℚ) (a b : Nat) :
    (faissLe index q a b || faissLe index q b a) = true := by
  simp only [faissLe, Bool.or_eq_true, decide_eq_true_iff]
  rcases lt_trichotomy (sqDist q (index.getD a [])) (sqDist q (index.getD b [])) with h | h | h
  · exact Or.inl (Or.inl h)
  · rcases Nat.le_total a b with h2 | h2
    · exact Or.inl (Or.inr ⟨h, h2⟩)
    · exact Or.inr (Or.inr ⟨h.symm, h2⟩)
  · exact Or.inr (Or.inl h)

lemma faissOrder_perm (index : List (List ℚ)) (q : List ℚ) :
    (faissOrder index q).Perm (List.range index.length) :=
  List.mergeSort_perm _ _

lemma faissOrder_length (index : List (List ℚ)) (q : List ℚ) :
    (faissOrder index q).length = index.length := by
  rw [(faissOrder_perm index q).length_eq, List.length_range]

lemma faissOrder_sorted (index : List (List ℚ)) (q : List ℚ) :
    (faissOrder index q).Pairwise fun a b =>
      sqDist q (index.getD a []) ≤ sqDist q (index.getD b []) := by
  have h := @List.sorted_mergeSort Nat (faissLe index q)
    (faissLe_trans index q) (faissLe_total index q) (List.range index.length)
  refine h.imp fun {a b} hab => ?_
  rcases decide_eq_true_iff.mp hab with hlt | ⟨heq, _⟩
  · exact le_of_lt hlt
  · exact le_of_eq heq

lemma dictGet_isSome_of_mem_keys (m : List (Nat × Chunk)) (i : Nat)
    (h : i ∈ m.map Prod.fst) : ∃ ch, dictGet m i = some ch := by
  obtain ⟨p, hp, he⟩ := List.mem_map.mp h
  have hsome : (m.find? fun p => p.1 == i).isSome = true :=
    List.find?_isSome.mpr ⟨p, hp, by simp [he]⟩
  cases hfind : m.find? fun p => p.1 == i with
  | none => rw [hfind] at hsome; simp at hsome
  | some p2 => exact ⟨p2.2, by simp [dictGet, hfind]⟩

lemma filterMap_dictGet_self :
    ∀ m : List (Nat × Chunk), (m.map Prod.fst).Nodup →
      (m.map Prod.fst).filterMap (dictGet m) = m.map Prod.snd := by
  intro m
  induction m with
  | nil => simp
  | cons p m ih =>
    intro hnd
    rw [List.map_cons] at hnd
    have hnotmem := (List.nodup_cons.mp hnd).1
    have hndtail := (List.nodup_cons.mp hnd).2
    have hhead : dictGet (p :: m) p.1 = some p.2 := by
      simp [dictGet, List.find?_cons]
    have htail : ∀ i ∈ m.map Prod.fst, dictGet (p :: m) i = dictGet m i := by
      intro i hi
      have hne : (p.1 == i) = false := by
        simp only [beq_eq_false_iff_ne, ne_eq]
        intro hcontra
        exact hnotmem (hcontra ▸ hi)
      simp [dictGet, List.find?_cons, hne]
    simp only [List.map_cons, List.filterMap_cons, hhead]
    rw [List.filterMap_congr htail, ih hndtail]

lemma length_filterMap_of_isSome {α β : Type} :
    ∀ (l : List α) (f : α → Option β), (∀ a ∈ l, (f a).isSome = true) →
      (l.filterMap f).length = l.length := by
  intro l f
  induction l with
  | nil => intro _; rfl
  | cons x l ih =>
    intro h
    have hx := h x (List.mem_cons_self _ _)
    cases hfx : f x with
    | none => rw [hfx] at hx; simp at hx
    | some y =>
      simp only [List.filterMap_cons, hfx, List.length_cons]
      rw [ih fun a ha => h a (List.mem_cons_of_mem _ ha)]

lemma metadata_nil_of_next_id_zero (s : Store) (hc : Consistent s)
    (h : s.next_id = 0) : s.metadata = [] := by
  have := hc.1
  rw [h, List.range_zero, List.map_eq_nil_iff] at this
  exact this

lemma segLe_trans (a b c : Chunk) (h1 : segLe a b = true) (h2 : segLe b c = true) :
    segLe a c = true := by
  simp only [segLe, decide_eq_true_iff] at h1 h2 ⊢
  omega

lemma segLe_total (a b : Chunk) : (segLe a b || segLe b a) = true := by
  simp only [segLe, Bool.or_eq_true, decide_eq_true_iff]
  omega

lemma getChunksByCallId_perm (s : Store) (c : String) :
    (getChunksByCallId s c).Perm
      ((s.metadata.map Prod.snd).filter fun ch => ch.call_id == c) :=
  List.mergeSort_perm _ _

lemma getChunksByCallId_sorted (s : Store) (c : String) :
    (getChunksByCallId s c).Pairwise fun a b => a.segment_id ≤ b.segment_id :=
  (List.sorted_mergeSort segLe_trans segLe_total _).imp fun hab =>
    decide_eq_true_iff.mp hab

lemma getChunksByCallId_nil_of_no_call (s : Store) (c : String)
    (h : ∀ p ∈ s.metadata, p.2.call_id ≠ c) : getChunksByCallId s c = [] := by
  unfold getChunksByCallId
  have hfil : (s.metadata.map Prod.snd).filter (fun ch => ch.call_id == c) = [] := by
    rw [List.filter_eq_nil_iff]
    intro ch hch
    obtain ⟨p, hp, hpe⟩ := List.mem_map.mp hch
    simp only [beq_iff_eq]
    exact hpe ▸ h p hp
  rw [hfil, List.mergeSort_nil]

/-! ### Sample data for witnesses -/

def sampleChunkX : Chunk := ⟨"a", 0, none, none, some "x"⟩

def sampleChunkY : Chunk := ⟨"a", 1, some "[00:02]", some "S", some "y"⟩

def sampleChunkZ : Chunk := ⟨"b", 0, none, none, some "z"⟩

def sampleStore : Store :=
  ⟨2, [[0, 0], [3, 4], [1, 0]], [(0, sampleChunkX), (1, sampleChunkY), (2, sampleChunkZ)], 3⟩

/-! ### Claim theorems -/

/-- Claim C1: starting from an empty store, every sequence of `add_documents`
calls with equally long, dimension-`D` chunk/embedding batches totalling
`M` records succeeds and leaves `next_id = M`, with the issued vector ids
exactly `0..M-1` (no gaps or reuse, insertion order) as the metadata keys,
and the similarity index holding exactly `M` vectors so that each
metadata key equals its record's index position. -/
theorem addAll_ids_exact_range (D : Nat) (batches : List (List Chunk × List (List ℚ)))
    (hval : ∀ b ∈ batches, b.1.length = b.2.length ∧ ∀ e ∈ b.2, e.length = D) :
    ∃ s, addAll (emptyStore D) batches = .ok s ∧
      s.next_id = (batches.map fun b => b.1.length).sum ∧
      s.metadata.map Prod.fst = List.range ((batches.map fun b => b.1.length).sum) ∧
      s.index.length = (batches.map fun b => b.1.length).sum := by
  obtain ⟨s, h, hc, _, hnext⟩ := addAll_ok batches (emptyStore D) (consistent_empty D) hval
  rw [show (emptyStore D).next_id = 0 from rfl, Nat.zero_add] at hnext
  exact ⟨s, h, hnext, by rw [hc.1, hnext], by rw [hc.2, hnext]⟩

theorem addAll_ids_exact_range_witness :
    ∃ s, addAll (emptyStore 2)
        [([sampleChunkX, sampleChunkY], [[0, 0], [3, 4]]), ([sampleChunkZ], [[1, 0]])] = .ok s ∧
      s.next_id = (([([sampleChunkX, sampleChunkY], [[(0 : ℚ), 0], [3, 4]]),
        ([sampleChunkZ], [[1, 0]])]).map fun b => b.1.length).sum ∧
      s.metadata.map Prod.fst = List.range ((([([sampleChunkX, sampleChunkY],
        [[(0 : ℚ), 0], [3, 4]]), ([sampleChunkZ], [[1, 0]])]).map fun b => b.1.length).sum) ∧
      s.index.length = (([([sampleChunkX, sampleChunkY], [[(0 : ℚ), 0], [3, 4]]),
        ([sampleChunkZ], [[1, 0]])]).map fun b => b.1.length).sum :=
  addAll_ids_exact_range 2
    [([sampleChunkX, sampleChunkY], [[0, 0], [3, 4]]), ([sampleChunkZ], [[1, 0]])]
    (by decide)

/-- Claim C2: for a store populated by `add_documents` calls, `save()` followed
by `load()` into a fresh store restores a store with identical
`get_all_call_ids()`, an identical `vector_id -> chunk` map, identical
`next_id`, and identical `search` results for every fixed query. -/
theorem save_load_roundtrip (D : Nat) (batches : List (List Chunk × List (List ℚ)))
    (s : Store) (_h : addAll (emptyStore D) batches = .ok s) :
    ∃ s2, vsLoad D (vsSave s) = .ok s2 ∧
      getAllCallIds s2 = getAllCallIds s ∧ s2.metadata = s.metadata ∧
      s2.next_id = s.next_id ∧ ∀ q k, searchStore s2 q k = searchStore s q k :=
  ⟨s, rfl, rfl, rfl, rfl, fun _ _ => rfl⟩

theorem save_load_roundtrip_witness :
    ∃ s2, vsLoad 2 (vsSave sampleStore) = .ok s2 ∧
      getAllCallIds s2 = getAllCallIds sampleStore ∧
      s2.metadata = sampleStore.metadata ∧
      s2.next_id = sampleStore.next_id ∧
      ∀ q k, searchStore s2 q k = searchStore sampleStore q k :=
  save_load_roundtrip 2
    [([sampleChunkX, sampleChunkY], [[0, 0], [3, 4]]), ([sampleChunkZ], [[1, 0]])]
    sampleStore rfl

/-- Claim C10: `load` restores persisted state only when both artifacts exist:
when exactly one of the two files is present (for instance the metadata
file alone), the present file is ignored and the result is the fresh
empty store with `next_id = 0` and no metadata. -/
theorem load_requires_both_files (cfgDim : Nat) (d : Disk)
    (h : (d.indexFile = none ∧ d.metaFile ≠ none) ∨
      (d.indexFile ≠ none ∧ d.metaFile = none)) :
    vsLoad cfgDim d = .ok (emptyStore cfgDim) ∧
      (emptyStore cfgDim).next_id = 0 ∧ (emptyStore cfgDim).metadata = [] := by
  obtain ⟨fi, fm⟩ := d
  refine ⟨?_, rfl, rfl⟩
  rcases fi with _ | ix <;> rcases fm with _ | raw
  · rfl
  · rfl
  · rfl
  · rcases h with ⟨h1, _⟩ | ⟨_, h2⟩
    · exact Option.noConfusion h1
    · exact Option.noConfusion h2

theorem load_requires_both_files_witness :
    vsLoad 7 ⟨none, some (some ([(0, sampleChunkX)], 1))⟩ = .ok (emptyStore 7) ∧
      (emptyStore 7).next_id = 0 ∧ (emptyStore 7).metadata = [] :=
  load_requires_both_files 7 ⟨none, some (some ([(0, sampleChunkX)], 1))⟩
    (Or.inl ⟨rfl, by decide⟩)

/-- Claim C4 counterexample: with both artifacts present but the metadata
artifact corrupt, `load` propagates the deserialization failure instead
of falling back to an empty store. -/
theorem load_corrupt_metadata_raises :
    vsLoad 384 ⟨some (384, []), some none⟩ = .error "pickle: UnpicklingError" ∧
      (vsLoad 384 ⟨some (384, []), some none⟩).isOk = false :=
  ⟨rfl, rfl⟩

/-- Claim C4 (amended): `load` falls back to the empty usable store only when a
persisted artifact is missing; when both artifacts are present but the
metadata artifact is corrupt, the deserialization error is raised to the
caller rather than recovered. -/
theorem load_fallback_only_for_missing (cfgDim : Nat) (d : Disk) :
    ((d.indexFile = none ∨ d.metaFile = none) →
      vsLoad cfgDim d = .ok (emptyStore cfgDim)) ∧
    (∀ ix, d.indexFile = some ix → d.metaFile = some none →
      vsLoad cfgDim d = .error "pickle: UnpicklingError") := by
  obtain ⟨fi, fm⟩ := d
  constructor
  · rintro (h | h)
    · rcases fi with _ | ix
      · rcases fm with _ | raw <;> rfl
      · exact Option.noConfusion h
    · rcases fm with _ | raw
      · rcases fi with _ | ix <;> rfl
      · exact Option.noConfusion h
  · intro ix h1 h2
    rcases fi with _ | ix2
    · exact Option.noConfusion h1
    · rcases fm with _ | raw
      · exact Option.noConfusion h2
      · rcases raw with _ | mn
        · rfl
        · exact Option.noConfusion (Option.some.inj h2)

theorem load_fallback_only_for_missing_witness :
    vsLoad 7 ⟨some (7, []), some none⟩ = .error "pickle: UnpicklingError" :=
  (load_fallback_only_for_missing 7 ⟨some (7, []), some none⟩).2 (7, []) rfl rfl

/-- Claim C5 counterexample: a call with 1 chunk but 2 dimension-correct
embeddings is not rejected with any error: `add_documents` succeeds and
updates the store partially (the index grows by 2 while metadata and
`next_id` advance by 1). -/
theorem addDocuments_length_mismatch_accepted :
    addDocuments (emptyStore 2) [sampleChunkX] [[0, 0], [1, 1]] =
      .ok { dim := 2, index := [[0, 0], [1, 1]],
            metadata := [(0, sampleChunkX)], next_id := 1 } ∧
      (addDocuments (emptyStore 2) [sampleChunkX] [[0, 0], [1, 1]]).isOk = true :=
  ⟨rfl, rfl⟩

/-- Claim C5 (amended): `add_documents` performs no length validation — every
call whose embeddings all have the index dimension succeeds, growing the
index by the number of embeddings while `next_id` advances by the number
of chunks (desynchronizing them on a length mismatch); only an embedding
of the wrong dimension makes the call fail, via the index's own add
(there is no `DimensionMismatch` type), before any store mutation. -/
theorem addDocuments_validation (s : Store) (chunks : List Chunk)
    (embeddings : List (List ℚ)) :
    ((∀ e ∈ embeddings, e.length = s.dim) →
      ∃ s2, addDocuments s chunks embeddings = .ok s2 ∧
        s2.index.length = s.index.length + embeddings.length ∧
        s2.next_id = s.next_id + chunks.length) ∧
    ((∃ e ∈ embeddings, e.length ≠ s.dim) →
      (addDocuments s chunks embeddings).isOk = false) := by
  constructor
  · intro hd
    exact ⟨_, addDocuments_ok_of_dims s chunks embeddings hd,
      by simp [List.length_append], rfl⟩
  · rintro ⟨e, he, hne⟩
    have hfalse : embeddings.all (fun e => decide (e.length = s.dim)) = false := by
      rw [List.all_eq_false]
      exact ⟨e, he, by simpa using hne⟩
    simp [addDocuments, hfalse, Except.isOk]
    rfl

theorem addDocuments_validation_witness :
    ∃ s2, addDocuments (emptyStore 2) [sampleChunkX] [[0, 0], [1, 1]] = .ok s2 ∧
      s2.index.length = (emptyStore 2).index.length + 2 ∧
      s2.next_id = (emptyStore 2).next_id + 1 :=
  (addDocuments_validation (emptyStore 2) [sampleChunkX] [[0, 0], [1, 1]]).1 (by decide)

/-- Claim C9: when parsing an input yields zero turns, the ingestion pipeline's
run returns without invoking the embedder (zero embedding calls) and
without mutating the store. -/
theorem pipelineRun_no_turns_no_mutation (embed : List String → List (List ℚ))
    (s : Store) (content callId : String)
    (h : parseTranscript content callId = []) :
    pipelineRun embed s content callId = .ok (s, 0) := by
  simp [pipelineRun, h, chunkDocument]

theorem pipelineRun_no_turns_no_mutation_witness :
    pipelineRun (fun ts => ts.map fun _ => [0, 0]) (emptyStore 2)
      "no headers here\n\n" "c" = .ok (emptyStore 2, 0) :=
  pipelineRun_no_turns_no_mutation (fun ts => ts.map fun _ => [0, 0]) (emptyStore 2)
    "no headers here\n\n" "c" (by decide)

/-- Claim C6: for every store and call id, `get_chunks_by_call_id` returns
exactly the stored records whose `call_id` equals `c` (a permutation of
the filtered metadata values, each element carrying that `call_id`), in
non-decreasing `segment_id` order, regardless of insertion interleaving. -/
theorem getChunksByCallId_exact_sorted (s : Store) (c : String) :
    (getChunksByCallId s c).Perm
      ((s.metadata.map Prod.snd).filter fun ch => ch.call_id == c) ∧
    (getChunksByCallId s c).Pairwise (fun a b => a.segment_id ≤ b.segment_id) ∧
    ∀ ch ∈ getChunksByCallId s c, ch.call_id = c := by
  refine ⟨getChunksByCallId_perm s c, getChunksByCallId_sorted s c, ?_⟩
  intro ch hch
  have hmem := (getChunksByCallId_perm s c).mem_iff.mp hch
  have := (List.mem_filter.mp hmem).2
  simpa using this

theorem getChunksByCallId_exact_sorted_witness :
    sampleChunkX.call_id = "a" :=
  (getChunksByCallId_exact_sorted sampleStore "a").2.2 sampleChunkX
    (by simp [getChunksByCallId, List.mergeSort, sampleStore, sampleChunkX,
      sampleChunkY, sampleChunkZ, segLe])

/-- Claim C7: `get_full_transcript` renders the call's chunks, in ascending
`segment_id` order, one line each as `"<timestamp> <speaker>: <text>"`
with `""` substituted for an absent timestamp and `"Unknown"` for an
absent speaker, joined by newlines; a call id with no stored records
yields the empty string. -/
theorem getFullTranscript_lines (s : Store) (c : String) :
    getFullTranscript s c = String.intercalate "\n"
      ((getChunksByCallId s c).map fun ch =>
        ch.timestamp.getD "" ++ " " ++ ch.speaker.getD "Unknown" ++ ": " ++
          ch.text.getD "") ∧
    (getChunksByCallId s c).Pairwise (fun a b => a.segment_id ≤ b.segment_id) ∧
    ((∀ p ∈ s.metadata, p.2.call_id ≠ c) → getFullTranscript s c = "") := by
  refine ⟨?_, getChunksByCallId_sorted s c, ?_⟩
  · cases hcs : getChunksByCallId s c with
    | nil =>
      simp only [getFullTranscript, hcs, List.isEmpty_nil, List.map_nil]
      rfl
    | cons x xs =>
      simp only [getFullTranscript, hcs, List.isEmpty_cons, List.map_cons]
      rfl
  · intro h
    simp [getFullTranscript, getChunksByCallId_nil_of_no_call s c h]

theorem getFullTranscript_lines_witness :
    getFullTranscript sampleStore "zzz" = "" :=
  (getFullTranscript_lines sampleStore "zzz").2.2 (by decide)

/-- Claim C3: on a consistent store with a dimension-`D` query: an empty store
yields the empty result; otherwise `search` returns exactly
`min k ntotal` records — the `k` nearest for `k ≤ ntotal`, all records
for `k > ntotal` — drawn from the metadata along positions in
non-decreasing exact squared-L2 distance to the query, and no `-1`
sentinel slot ever surfaces (every returned element is a stored
record). -/
theorem search_exact_knn (s : Store) (q : List ℚ) (k : Nat)
    (hc : Consistent s) (hq : q.length = s.dim) :
    (s.index.length = 0 → searchStore s q k = .ok []) ∧
    ∃ (res : List Chunk) (ps : List Nat),
      searchStore s q k = .ok res ∧
      res = ps.filterMap (dictGet s.metadata) ∧
      ps.length = min k s.index.length ∧
      res.length = min k s.index.length ∧
      ps.Pairwise (fun a b =>
        sqDist q (s.index.getD a []) ≤ sqDist q (s.index.getD b [])) ∧
      (∀ i ∈ ps, i < s.index.length) ∧
      (∀ ch ∈ res, ∃ i, dictGet s.metadata i = some ch) ∧
      (s.index.length ≤ k → res.Perm (s.metadata.map Prod.snd)) := by
  have hzero : s.index.length = 0 → searchStore s q k = .ok [] := by
    intro h0
    unfold searchStore
    rw [if_pos h0]
  refine ⟨hzero, ?_⟩
  by_cases h0 : s.index.length = 0
  · refine ⟨[], [], hzero h0, rfl, by simp [h0], by simp [h0],
      List.Pairwise.nil, by simp, by simp, ?_⟩
    intro _
    have hm : s.metadata = [] :=
      metadata_nil_of_next_id_zero s hc (by rw [← hc.2, h0])
    simp [hm]
  · have hkeys : s.metadata.map Prod.fst = List.range s.index.length := by
      rw [hc.1, hc.2]
    have hmemlt : ∀ i ∈ (faissOrder s.index q).take k, i < s.index.length := by
      intro i hi
      have hmem : i ∈ faissOrder s.index q := (List.take_sublist _ _).subset hi
      exact List.mem_range.mp ((faissOrder_perm s.index q).mem_iff.mp hmem)
    have hsome : ∀ i ∈ (faissOrder s.index q).take k,
        (dictGet s.metadata i).isSome = true := by
      intro i hi
      obtain ⟨ch, hch⟩ := dictGet_isSome_of_mem_keys s.metadata i
        (by rw [hkeys]; exact List.mem_range.mpr (hmemlt i hi))
      rw [hch]
      rfl
    have hpslen : ((faissOrder s.index q).take k).length = min k s.index.length := by
      rw [List.length_take, faissOrder_length]
    have hres_eq : (faissSearch s.index q k).filterMap
        (fun i => if i = -1 then none else dictGet s.metadata i.toNat) =
        ((faissOrder s.index q).take k).filterMap (dictGet s.metadata) := by
      unfold faissSearch
      rw [List.filterMap_append, List.filterMap_map]
      have h1 : List.filterMap
          ((fun i => if i = -1 then none else dictGet s.metadata i.toNat) ∘ Int.ofNat)
          ((faissOrder s.index q).take k) =
          ((faissOrder s.index q).take k).filterMap (dictGet s.metadata) := by
        apply List.filterMap_congr
        intro i _
        have hni : Int.ofNat i ≠ -1 := by simp
        simp [Function.comp, hni]
      have h2 : List.filterMap (fun i => if i = -1 then none else dictGet s.metadata i.toNat)
          (List.replicate (k - min k s.index.length) (-1)) = [] := by
        rw [List.filterMap_eq_nil_iff]
        intro a ha
        rw [(List.eq_of_mem_replicate ha : a = -1)]
        simp
      rw [h1, h2, List.append_nil]
    refine ⟨((faissOrder s.index q).take k).filterMap (dictGet s.metadata),
      (faissOrder s.index q).take k, ?_, rfl, hpslen, ?_, ?_, hmemlt, ?_, ?_⟩
    · unfold searchStore
      rw [if_neg h0, if_pos hq, hres_eq]
    · rw [length_filterMap_of_isSome _ _ hsome, hpslen]
    · exact List.Pairwise.sublist (List.take_sublist _ _) (faissOrder_sorted s.index q)
    · intro ch hch
      obtain ⟨i, _, hfi⟩ := List.mem_filterMap.mp hch
      exact ⟨i, hfi⟩
    · intro hk
      have htake : (faissOrder s.index q).take k = faissOrder s.index q :=
        List.take_of_length_le (by rw [faissOrder_length]; exact hk)
      have hperm2 : ((faissOrder s.index q).take k).Perm (List.range s.index.length) := by
        rw [htake]
        exact faissOrder_perm s.index q
      have hp3 := hperm2.filterMap (dictGet s.metadata)
      rw [← hkeys] at hp3
      rw [filterMap_dictGet_self s.metadata
        (by rw [hkeys]; exact List.nodup_range _)] at hp3
      exact hp3

theorem search_exact_knn_witness :
    (sampleStore.index.length = 0 → searchStore sampleStore [0, 0] 5 = .ok []) ∧
    ∃ (res : List Chunk) (ps : List Nat),
      searchStore sampleStore [0, 0] 5 = .ok res ∧
      res = ps.filterMap (dictGet sampleStore.metadata) ∧
      ps.length = min 5 sampleStore.index.length ∧
      res.length = min 5 sampleStore.index.length ∧
      ps.Pairwise (fun a b =>
        sqDist [0, 0] (sampleStore.index.getD a []) ≤
          sqDist [0, 0] (sampleStore.index.getD b [])) ∧
      (∀ i ∈ ps, i < sampleStore.index.length) ∧
      (∀ ch ∈ res, ∃ i, dictGet sampleStore.metadata i = some ch) ∧
      (sampleStore.index.length ≤ 5 → res.Perm (sampleStore.metadata.map Prod.snd)) :=
  search_exact_knn sampleStore [0, 0] 5 ⟨rfl, rfl⟩ rfl

/-- Claim C8: the input `"[00:01] A: hello\nworld\n[00:05] B: hi"` parses to
exactly the two stated turns; in general a continuation line (non-blank,
non-header, with a pending speaker) is appended left-trimmed to the
pending speech (joined with newlines at emission), a blank line neither
closes nor extends a turn, a non-header line before any header is
dropped, and the pending turn is emitted at end of input. -/
theorem parseTranscript_segmentation :
    (parseTranscript "[00:01] A: hello\nworld\n[00:05] B: hi" "c" =
      [⟨"c", some "[00:01]", "A", "hello\nworld"⟩,
       ⟨"c", some "[00:05]", "B", "hi"⟩]) ∧
    (∀ callId spk ts speech l ls, hdrMatch (pyRstrip l) = none → pyRstrip l ≠ "" →
      spkTruthy spk = true →
      parseLoop callId spk ts speech (l :: ls) =
        parseLoop callId spk ts (speech ++ [pyStrip l]) ls) ∧
    (∀ callId spk ts speech l ls, pyRstrip l = "" →
      parseLoop callId spk ts speech (l :: ls) = parseLoop callId spk ts speech ls) ∧
    (∀ callId ts speech l ls, hdrMatch (pyRstrip l) = none →
      parseLoop callId none ts speech (l :: ls) = parseLoop callId none ts speech ls) ∧
    (∀ callId spk ts speech, spkTruthy spk = true → speech ≠ [] →
      parseLoop callId spk ts speech [] =
        [⟨callId, ts, spk.getD "", String.intercalate "\n" speech⟩]) := by
  refine ⟨by decide, ?_, ?_, ?_, ?_⟩
  · intro callId spk ts speech l ls hh hne hs
    have hie : (pyRstrip l).isEmpty = false := by
      rw [Bool.eq_false_iff]
      intro hcontra
      exact hne ((String.isEmpty_iff _).mp hcontra)
    simp only [parseLoop]
    rw [hh, pyStrip_pyRstrip]
    simp [hie, hs]
  · intro callId spk ts speech l ls hb
    simp only [parseLoop, hb]
    rfl
  · intro callId ts speech l ls hh
    simp only [parseLoop]
    rw [hh]
    simp [spkTruthy]
  · intro callId spk ts speech hs hne
    cases speech with
    | nil => exact absurd rfl hne
    | cons x xs => simp [parseLoop, flushTurn, hs]

theorem parseTranscript_segmentation_witness :
    parseLoop "c" (some "A") none ["x"] [] =
      [⟨"c", none, (some "A").getD "", String.intercalate "\n" ["x"]⟩] :=
  parseTranscript_segmentation.2.2.2.2 "c" (some "A") none ["x"] (by decide) (by decide)

end ConvCopilot
